import Mathlib

/-!
Shallow embedding of the build-context archiver of this repository:

* `pkg/bindings/internal/util/tar.go` — `CreateTar` and its `filepath.WalkDir`
  callback (streaming tar producer: exclusion, hard-link deduplication via the
  `seen` map keyed by `devino`, per-root error aggregation into a multi-error
  surfaced when the returned stream is closed);
* the `!windows` build of `CheckHardLink` (the `devino` identity key);
* `pkg/bindings/kube/kube.go` — `OSReadDir` and the context-selection core of
  `getTarKubePlayContext` (retained set `seen`, exclusion set `excluded`);
* `pkg/api/handlers/libpod/kube.go` — the Content-Type gate of `KubePlay`.

Filesystems are modelled as finite trees (`FSNode`); a directory listing is the
given, already lexically ordered, child list.  `filepath.WalkDir` is embedded
as the visit list `walkVisits` (root first, depth first) folded by `walkRoot`,
which stops at the first error returned by the callback, exactly as
`filepath.WalkDir` does.  Machine-level aspects that the claims do not touch
(pipe backpressure, gzip framing, `filepath.Abs` failure, `Readdir` failures on
directories) are not modelled; per-file failure points of the callback
(`os.Open`, `io.Copy`) are modelled by the `openOk` / `copyOk` flags of a file.
Tar headers carry a ghost field `key` (the devino identity of the source file
of a regular-file or hard-link entry); it is not part of the wire format and is
used only to state identity-based properties.
-/

/-- `devino` from tar.go: the (device, inode) identity key of `CheckHardLink`. -/
structure devino where
  Dev : Nat
  Ino : Nat
deriving DecidableEq

/-- The stat data of one regular file: ownership as found on disk, the identity
key fields, the link count (`st.Nlink`), the content bytes, and the two
per-file failure points of the walk callback: `openOk` is false when `os.Open`
fails on the file, `copyOk` is false when `io.Copy` fails while streaming its
content. -/
structure FileMeta where
  uid : Nat
  gid : Nat
  dev : Nat
  ino : Nat
  nlink : Nat
  content : List Nat
  openOk : Bool
  copyOk : Bool
deriving DecidableEq

/-- A filesystem node as seen by `fs.DirEntry`: a regular file, a directory
(child list given in lexical order, as `filepath.WalkDir` reads it), a symbolic
link carrying its target, or any other file type (device node, socket, ...). -/
inductive FSNode where
  | file (meta : FileMeta)
  | dir (uid gid : Nat) (children : List (String × FSNode))
  | symlink (uid gid : Nat) (target : String)
  | other

/-- `CheckHardLink` (the `!windows` build): the devino key of a file and
whether its link count exceeds one. -/
def CheckHardLink (m : FileMeta) : devino × Bool :=
  (⟨m.dev, m.ino⟩, decide (m.nlink > 1))

/-- The devino key of a file. -/
def keyOf (m : FileMeta) : devino := ⟨m.dev, m.ino⟩

/-- `tar.Header.Typeflag` values used by the producer: `TypeReg`, `TypeLink`,
`TypeDir`, `TypeSymlink`. -/
inductive TypeFlag where
  | reg
  | link
  | dir
  | symlink
deriving DecidableEq

/-- One archive entry as written by `tw.WriteHeader` (plus, for a regular
file, the bytes that `io.Copy` streamed right after the header: `content`, and
whether that copy ran to completion: `copied`).  `key` is a ghost field: the
devino identity of the source file behind a regular-file or hard-link entry,
carried only so that identity-based properties can be stated. -/
structure Header where
  name : String
  typeflag : TypeFlag
  uid : Nat
  gid : Nat
  size : Nat
  linkname : String
  content : List Nat
  copied : Bool
  key : Option devino
deriving DecidableEq

/-- `tar.FileInfoHeader`: builds a header from the stat data, with ownership
as found on disk; the callback then overwrites `Uid`, `Gid` and `Name`. -/
def fileInfoHeader (typeflag : TypeFlag) (uid gid size : Nat) (linkname : String)
    (key : Option devino) : Header :=
  { name := "", typeflag := typeflag, uid := uid, gid := gid, size := size,
    linkname := linkname, content := [], copied := false, key := key }

/-- The producer state threaded through one archive-build pass: the entries
written so far (the tar stream) and the `seen` hard-link identity map. -/
structure TarState where
  out : List Header
  seen : List (devino × String)
deriving DecidableEq

/-- Lookup in the `seen` map (`orig, ok := seen[di]`). -/
def lookupSeen : List (devino × String) → devino → Option String
  | [], _ => none
  | (k, v) :: rest, di => if k = di then some v else lookupSeen rest di

/-- The regular-file branch of the walk callback: build the header via
`tar.FileInfoHeader`, zero `Uid`/`Gid`, and either emit a hard-link entry
(identity already seen: `Typeflag = TypeLink`, `Linkname` = the recorded name,
`Size = 0`, content not re-read), or open the file, write the header, copy the
content, and — only when the copy succeeded and the link count exceeds one —
record the name in `seen`.  A failed `os.Open` emits nothing; a failed
`io.Copy` leaves the already-written header in the stream but records nothing
and returns the error. -/
def emitFile (m : FileMeta) (name : String) (st : TarState) : TarState × Option String :=
  let di := (CheckHardLink m).1
  let isHardLink := (CheckHardLink m).2
  let hdr := { fileInfoHeader TypeFlag.reg m.uid m.gid m.content.length "" (some di) with
               uid := 0, gid := 0, name := name }
  match lookupSeen st.seen di with
  | some orig =>
      ({ st with out := st.out ++ [{ hdr with typeflag := TypeFlag.link, linkname := orig, size := 0 }] },
       none)
  | none =>
      if !m.openOk then (st, some ("open " ++ name))
      else if m.copyOk then
        ({ out := st.out ++ [{ hdr with content := m.content, copied := true }],
           seen := if isHardLink then (di, name) :: st.seen else st.seen }, none)
      else
        ({ st with out := st.out ++ [hdr] }, some ("copy " ++ name))

/-- The directory branch of the walk callback: header with zeroed ownership,
no content. -/
def emitDir (uid gid : Nat) (name : String) (st : TarState) : TarState :=
  { st with out := st.out ++ [{ fileInfoHeader TypeFlag.dir uid gid 0 "" none with
                                uid := 0, gid := 0, name := name }] }

/-- The symlink branch of the walk callback: header carrying the link target
as-is in `Linkname`, zeroed ownership, no content. -/
def emitSymlink (uid gid : Nat) (target name : String) (st : TarState) : TarState :=
  { st with out := st.out ++ [{ fileInfoHeader TypeFlag.symlink uid gid 0 target none with
                                uid := 0, gid := 0, name := name }] }

/-- The root-relative slash-joined name produced for index-0 roots by
`filepath.ToSlash(strings.TrimPrefix(path, source+separator))`: the walk hands
the callback `source`-relative component lists, so the trimmed name is their
"/"-join (and `""` for the root itself, where `separator` is `""`). -/
def relName : List String → String
  | [] => ""
  | a :: rest => rest.foldl (fun acc s => acc ++ "/" ++ s) a

/-- `filepath.IsAbs` on a Unix path: the name starts with `/`. -/
def goIsAbs (s : String) : Bool :=
  match s.data with
  | [] => false
  | c :: _ => c = '/'

/-- The archive name of a visited entry: root-relative for the first root,
the absolute on-disk path (`filepath.ToSlash(path)`) for later roots. -/
def entryName (i : Nat) (srcAbs : String) (rel : List String) : String :=
  if i = 0 then relName rel
  else match rel with
    | [] => srcAbs
    | a :: rest => srcAbs ++ "/" ++ relName (a :: rest)

/-- The walk callback's opening special case: the visited entry is the root
itself (`source == path`) and a non-empty directory (`p.Readdir(1)` succeeds),
in which case the callback returns nil without emitting anything and the walk
descends into the children. -/
def isNonEmptyDirRoot : List String × FSNode → Bool
  | ([], FSNode.dir _ _ (_ :: _)) => true
  | _ => false

/-- `dentry.Type().IsRegular()`. -/
def isRegularNode : FSNode → Bool
  | FSNode.file _ => true
  | _ => false

/-- One invocation of the walk callback of `CreateTar` on a visited entry
(given as its `source`-relative component list and its node), in source order:
the non-empty-directory-root skip; for later roots the regular-file
requirement (`path %s must be a regular file`); the name computation; the
exclusion test, applied only to non-absolute names and returning nil (skip,
no pruning) on a match; then the per-type emission.  Returns the updated
producer state and the error the callback returned, if any. -/
def stepVisit (pm : String → Bool) (i : Nat) (srcAbs : String)
    (v : List String × FSNode) (st : TarState) : TarState × Option String :=
  if isNonEmptyDirRoot v then (st, none)
  else if i != 0 && !isRegularNode v.2 then
    (st, some ("path " ++ entryName i srcAbs v.1 ++ " must be a regular file"))
  else
    let name := entryName i srcAbs v.1
    if !goIsAbs name && pm name then (st, none)
    else
      match v.2 with
      | FSNode.file m => emitFile m name st
      | FSNode.dir u g _ => (emitDir u g name st, none)
      | FSNode.symlink u g t => (emitSymlink u g t name st, none)
      | FSNode.other => (st, none)

mutual

/-- The visit order of `filepath.WalkDir` on a tree: the root first, then,
for a directory, every child subtree depth first in the listed (lexical)
order; visits are tagged with their root-relative component path. -/
def walkVisits : FSNode → List (List String × FSNode)
  | FSNode.file m => [([], FSNode.file m)]
  | FSNode.symlink u g t => [([], FSNode.symlink u g t)]
  | FSNode.other => [([], FSNode.other)]
  | FSNode.dir u g cs => ([], FSNode.dir u g cs) :: walkVisitsChildren cs

/-- Visits contributed by a directory's children, in listed order. -/
def walkVisitsChildren : List (String × FSNode) → List (List String × FSNode)
  | [] => []
  | (nm, c) :: rest =>
      (walkVisits c).map (fun v => (nm :: v.1, v.2)) ++ walkVisitsChildren rest

end

/-- `filepath.WalkDir` with the `CreateTar` callback on one root: folds the
visit list through `stepVisit`, stopping at the first error the callback
returns (a non-nil return from a `WalkDirFunc` stops the whole walk), and
reports that error. -/
def walkRoot (pm : String → Bool) (i : Nat) (srcAbs : String)
    (visits : List (List String × FSNode)) (st : TarState) : TarState × Option String :=
  match visits with
  | [] => (st, none)
  | v :: rest =>
      match stepVisit pm i srcAbs v st with
      | (st', none) => walkRoot pm i srcAbs rest st'
      | (st', some e) => (st', some e)

/-- One source root handed to `CreateTar`: its absolute path (the result of
`filepath.Abs`) and its on-disk tree. -/
structure Source where
  abs : String
  node : FSNode

/-- The `for i, src := range sources` loop body of the producer goroutine:
walk each root in order, threading the producer state (one `seen` map per
pass), and aggregate each root's walk error — `multierror.Append` drops nil —
into the multi-error list that the stream's close wrapper surfaces. -/
def runRoots (pm : String → Bool) (i : Nat) (sources : List Source)
    (st : TarState) (errs : List String) : TarState × List String :=
  match sources with
  | [] => (st, errs)
  | s :: rest =>
      let r := walkRoot pm i s.abs (walkVisits s.node) st
      runRoots pm (i + 1) rest r.1 (errs ++ r.2.toList)

/-- `CreateTar`: fails before any traversal when the exclude-pattern set is
malformed (`fileutils.NewPatternMatcher` error, modelled by `pmOk = false`) or
when no source root is supplied; otherwise the produced stream is the entry
list of the full pass together with the aggregated error list surfaced when
the returned `ReadCloser` is closed. -/
def CreateTar (pmOk : Bool) (pm : String → Bool) (sources : List Source) :
    Except String (TarState × List String) :=
  if !pmOk then Except.error "processing excludes list"
  else if sources.isEmpty then Except.error "no source(s) provided for build"
  else Except.ok (runRoots pm 0 sources ⟨[], []⟩ [])

/-- A visited entry whose node is a regular file has working `os.Open` and
`io.Copy`. -/
def visitFileOk : List String × FSNode → Bool
  | (_, FSNode.file m) => m.openOk && m.copyOk
  | _ => true

/-- At a visited regular file whose identity key is `di`, the link count
exceeds one and open/copy succeed (files of other keys are unconstrained). -/
def visitHardOk (di : devino) : List String × FSNode → Bool
  | (_, FSNode.file m) =>
      if keyOf m = di then decide (m.nlink > 1) && m.openOk && m.copyOk else true
  | _ => true

/-- At a visited regular file whose identity key is `di`, the link count is
at most one. -/
def visitNoHard (di : devino) : List String × FSNode → Bool
  | (_, FSNode.file m) => if keyOf m = di then decide (m.nlink ≤ 1) else true
  | _ => true

/-- Node kinds for which the callback emits an entry (everything except the
"other" file types, which are silently skipped). -/
def emittable : FSNode → Bool
  | FSNode.other => false
  | _ => true

/-- A root that, handed to `CreateTar` at index > 0, makes the walk callback
fail at its very first visit: a symlink, an "other" node, or an empty
directory (whose `Readdir(1)` hits `io.EOF`, falling through to the
regular-file requirement). -/
def laterRootFatal : FSNode → Bool
  | FSNode.symlink _ _ _ => true
  | FSNode.other => true
  | FSNode.dir _ _ [] => true
  | _ => false

/-- One character-list component of a slash-separated path (structural helper
for `dirOf`). -/
def splitSlash : List Char → List (List Char)
  | [] => [[]]
  | c :: rest =>
      match splitSlash rest with
      | [] => [[]]
      | a :: as => if c = '/' then [] :: a :: as else (c :: a) :: as

/-- `filepath.Dir` on a slash-separated, already clean path: everything up to
the last separator (`.` when there is none). -/
def dirOf (p : String) : String :=
  match (splitSlash p.data).dropLast with
  | [] => "."
  | parts => relName (parts.map (fun cs => String.mk cs))

/-- `OSReadDir` from kube.go: the immediate (non-recursive) children of a
folder, each joined onto the root with `filepath.Join`; the directory listing
itself is supplied as the name list `childNames`. -/
def OSReadDir (root : String) (childNames : List String) : List String :=
  childNames.map (fun name => root ++ "/" ++ name)

/-- Modelled from the spec: one document of the multi-document manifest after
`util.SplitMultiDocYAML` and the `util.GetKubeKind` / `yaml.Unmarshal` decode
steps, neither of which is under `src/`; per the spec a document is tagged
with its `kind` discriminator, and a "Pod" document carries its containers'
image references. -/
structure KubeDoc where
  kind : String
  containerImages : List String
deriving DecidableEq

/-- Modelled from the spec: `util.GetBuildFile` (not under `src/`) resolves
whether a container image reference names a build instruction file inside the
context directory — returning that file's path, or the empty string for a
registry-only or unresolvable reference; the resolution itself is supplied as
an oracle. -/
def GetBuildFile (resolver : String → String) (image : String) : String :=
  resolver image

/-- The retained-path set computed by `getTarKubePlayContext`: it starts as
`{"play.yaml"}` (the synthetic manifest is never excluded); every non-"Pod"
document is ignored; for each container of a Pod document whose image
reference resolves to a build file, the directory containing that build file
is appended. -/
def getTarKubePlaySeen (resolver : String → String) (documentList : List KubeDoc) :
    List String :=
  documentList.foldl
    (fun seen doc =>
      if doc.kind ≠ "Pod" then seen
      else
        doc.containerImages.foldl
          (fun seen image =>
            let buildFile := GetBuildFile resolver image
            if buildFile = "" then seen else seen ++ [dirOf buildFile])
          seen)
    ["play.yaml"]

/-- The exclusion set computed by `getTarKubePlayContext`: every file of the
context directory's listing that is not in the retained set
(`!slices.Contains(seen, file)`). -/
def getTarKubePlayExcluded (files seen : List String) : List String :=
  files.filter (fun file => !seen.contains file)

/-- The outcome of the Content-Type gate of the `KubePlay` handler. -/
inductive ContentTypeDecision where
  | accept
  | acceptWithLog
  | badRequest
deriving DecidableEq

/-- The Content-Type gate at the top of `KubePlay` in
`pkg/api/handlers/libpod/kube.go`: an absent header is not checked;
`application/json` and `application/x-tar` are accepted silently;
`application/tar` is accepted with a log message; any other value is rejected
with Bad Request when the request is a libpod-native one
(`utils.IsLibpodRequest`), and otherwise only logged and accepted. -/
def kubePlayContentTypeGate (contentType : Option String) (isLibpodRequest : Bool) :
    ContentTypeDecision :=
  match contentType with
  | none => ContentTypeDecision.accept
  | some ct =>
      if ct = "application/json" then ContentTypeDecision.accept
      else if ct = "application/tar" then ContentTypeDecision.acceptWithLog
      else if ct = "application/x-tar" then ContentTypeDecision.accept
      else if isLibpodRequest then ContentTypeDecision.badRequest
      else ContentTypeDecision.acceptWithLog

/-! Concrete filesystems used by witnesses and counterexamples. -/

/-- A regular file with link count 2 (one on-disk file reachable under two
names), non-root ownership, content bytes `[104, 105]`. -/
def fmHard : FileMeta := ⟨1000, 1000, 1, 7, 2, [104, 105], true, true⟩

/-- A plain regular file with link count 1. -/
def fmPlain : FileMeta := ⟨1000, 1000, 1, 9, 1, [99], true, true⟩

/-- A regular file whose `os.Open` fails. -/
def fmBad : FileMeta := ⟨1000, 1000, 2, 11, 1, [1], false, true⟩

/-- Another plain regular file with link count 1. -/
def fmGood : FileMeta := ⟨1000, 1000, 2, 12, 1, [2], true, true⟩

/-- A primary root holding a hard-link pair `a`/`b` and a plain file `c`. -/
def exHardTree : FSNode :=
  FSNode.dir 0 0 [("a", FSNode.file fmHard), ("b", FSNode.file fmHard), ("c", FSNode.file fmPlain)]

/-- A primary root whose first child fails to open and whose second child is
fine. -/
def exBadTree : FSNode :=
  FSNode.dir 0 0 [("a", FSNode.file fmBad), ("b", FSNode.file fmGood)]

/-- A second source root that is a non-empty directory holding one regular
file, as `getTarKubePlayContext` passes its temporary `play.yaml` directory. -/
def exTmpDir : FSNode := FSNode.dir 5 5 [("play.yaml", FSNode.file fmGood)]

/-- A primary root with an excluded subdirectory holding a re-includable
descendant. -/
def exSubTree : FSNode :=
  FSNode.dir 0 0 [("sub", FSNode.dir 0 0 [("inner.txt", FSNode.file fmPlain)])]

/-- The build-file resolution oracle of the C5 scenario: one image resolves
to a Containerfile under `source2`, everything else is registry-only. -/
def c5resolver : String → String :=
  fun image => if image = "foo.io/myimage" then "/ctx/source2/Containerfile" else ""

/-- The manifest of the C5 scenario: a single Pod document with one
container. -/
def c5docs : List KubeDoc := [⟨"Pod", ["foo.io/myimage"]⟩]

/-- A `seen`-map entry always points at an already-written content-carrying
entry: a regular-file header whose copy completed, with the recorded archive
name and the same identity key. -/
def SeenPointsToContent (st : TarState) : Prop :=
  ∀ p ∈ st.seen, ∃ h ∈ st.out, h.name = p.2 ∧ h.typeflag = TypeFlag.reg ∧
    h.copied = true ∧ h.key = some p.1

/-- Every hard-link entry of the stream points back at a strictly earlier
content-carrying regular entry of the same identity key whose archive name is
the link's `Linkname`. -/
def LinksPointBack (out : List Header) : Prop :=
  ∀ (j : Nat) (h : Header), out[j]? = some h → h.typeflag = TypeFlag.link →
    ∃ k h', k < j ∧ out[k]? = some h' ∧ h'.typeflag = TypeFlag.reg ∧
      h'.copied = true ∧ h'.name = h.linkname ∧ h'.key = h.key

/-- The subsequence of the stream carrying a given identity key (ghost
projection used to state hard-link deduplication). -/
def outKey (di : devino) (out : List Header) : List Header :=
  out.filter (fun h => h.key == some di)

/-- The dedup invariant for one identity key: while the key is unrecorded no
entry of that key has been written; once recorded under name `nm`, the
entries of that key are one content-carrying regular entry named `nm`
followed only by hard-link entries of size 0 and empty content pointing at
`nm`. -/
def InvKey (di : devino) (st : TarState) : Prop :=
  match lookupSeen st.seen di with
  | none => outKey di st.out = []
  | some nm => ∃ hd tl, outKey di st.out = hd :: tl ∧ hd.name = nm ∧
      hd.typeflag = TypeFlag.reg ∧ hd.copied = true ∧
      ∀ h ∈ tl, h.typeflag = TypeFlag.link ∧ h.size = 0 ∧ h.linkname = nm ∧ h.content = []

def exRegHeaderA : Header := ⟨"a", TypeFlag.reg, 0, 0, 2, "", [104, 105], true, some ⟨1, 7⟩⟩

def exLinkHeaderB : Header := ⟨"b", TypeFlag.link, 0, 0, 0, "a", [], false, some ⟨1, 7⟩⟩

/-- C5: for a context directory with immediate children `source1` and
`source2` and a manifest whose single Pod document references a build file at
`source2/Containerfile`, the retained set is exactly the synthetic manifest
name `play.yaml` plus the directory `source2` containing the build file, and
the exclusion set handed to the archiver is exactly `source1` — in particular
it contains `source1` and not `source2`. -/
theorem kube_context_selection_example :
    getTarKubePlaySeen c5resolver c5docs = ["play.yaml", "/ctx/source2"] ∧
    getTarKubePlayExcluded (OSReadDir "/ctx" ["source1", "source2"])
        (getTarKubePlaySeen c5resolver c5docs) = ["/ctx/source1"] := by
  decide

/-- C7: with a malformed exclude-pattern set, `CreateTar` fails at once with
the pattern-processing error for any source list, and with an empty source
list it fails at once with the no-sources error; in both cases the result is
an `Except.error`, so no stream is produced and no traversal begins. -/
theorem createTar_setup_failures (pm : String → Bool) (sources : List Source) :
    CreateTar false pm sources = Except.error "processing excludes list" ∧
    CreateTar true pm [] = Except.error "no source(s) provided for build" :=
  ⟨rfl, rfl⟩

/-- C9: the `KubePlay` Content-Type gate accepts `application/x-tar` and
`application/json` silently and the legacy alias `application/tar` with only
a log message; any other value is rejected with Bad Request exactly when the
request is libpod-native, and otherwise logged and accepted. -/
theorem kube_play_content_type_gate_policy (ct : String) (libpod : Bool)
    (h1 : ct ≠ "application/json") (h2 : ct ≠ "application/tar")
    (h3 : ct ≠ "application/x-tar") :
    kubePlayContentTypeGate (some "application/x-tar") libpod = ContentTypeDecision.accept ∧
    kubePlayContentTypeGate (some "application/tar") libpod = ContentTypeDecision.acceptWithLog ∧
    kubePlayContentTypeGate (some "application/json") libpod = ContentTypeDecision.accept ∧
    kubePlayContentTypeGate (some ct) true = ContentTypeDecision.badRequest ∧
    kubePlayContentTypeGate (some ct) false = ContentTypeDecision.acceptWithLog := by
  refine ⟨by cases libpod <;> decide, by cases libpod <;> decide,
    by cases libpod <;> decide, ?_, ?_⟩ <;>
    simp [kubePlayContentTypeGate, h1, h2, h3]

/-- Witness for C9 at the concrete unrecognized value `text/plain`. -/
theorem kube_play_content_type_gate_policy_witness :
    kubePlayContentTypeGate (some "application/x-tar") true = ContentTypeDecision.accept ∧
    kubePlayContentTypeGate (some "application/tar") true = ContentTypeDecision.acceptWithLog ∧
    kubePlayContentTypeGate (some "application/json") true = ContentTypeDecision.accept ∧
    kubePlayContentTypeGate (some "text/plain") true = ContentTypeDecision.badRequest ∧
    kubePlayContentTypeGate (some "text/plain") false = ContentTypeDecision.acceptWithLog :=
  kube_play_content_type_gate_policy "text/plain" true (by decide) (by decide) (by decide)

/-- Counterexample to C2 as stated: in the primary root `exBadTree`, the open
failure on entry `a` makes the walk callback return a non-nil error, which
stops `filepath.WalkDir` for that whole root — the sibling `b` is never
processed and no entry is emitted for it.  The error is aggregated (it is the
close-time multi-error), but sibling processing within the same root does not
continue. -/
theorem sibling_abort_on_entry_error_cex :
    runRoots (fun _ => false) 0 [⟨"/ctx", exBadTree⟩] ⟨[], []⟩ [] =
      (⟨[], []⟩, ["open a"]) := by
  decide

/-- Counterexample to C3 as stated: a root at index 1 that is a non-empty
directory of regular files does not fail the build — the directory root
itself is skipped by the `Readdir(1)` special case, its regular child is
archived under its absolute path, and the aggregated error list is empty. -/
theorem later_root_nonempty_directory_cex :
    ((CreateTar true (fun _ => false)
        [⟨"/ctx", FSNode.dir 0 0 [("f", FSNode.file fmGood)]⟩, ⟨"/abs", exTmpDir⟩]).toOption.map
      (fun r => (r.1.out.map Header.name, r.2))) =
      some (["f", "/abs/play.yaml"], []) := by
  decide

/-- Counterexample to C6 as stated: an empty directory as the primary root
falls through the `Readdir(1)` check (`io.EOF`) and the callback does emit an
entry for it — a directory entry whose archive name is the empty string. -/
theorem empty_primary_root_emits_cex :
    (runRoots (fun _ => false) 0 [⟨"/ctx", FSNode.dir 3 4 []⟩] ⟨[], []⟩ []).1.out =
      [⟨"", TypeFlag.dir, 0, 0, 0, "", [], false, none⟩] := by
  decide

/-- C6 amended: an empty directory as the primary root yields exactly one
entry — a directory entry with zeroed ownership whose archive name is the
empty string — and no error (given that the pattern set does not match the
empty relative name, as with any well-formed ignore file). -/
theorem empty_primary_root_dir_entry (pm : String → Bool) (a : String) (u g : Nat)
    (hpm : pm "" = false) :
    CreateTar true pm [⟨a, FSNode.dir u g []⟩] =
      Except.ok (⟨[⟨"", TypeFlag.dir, 0, 0, 0, "", [], false, none⟩], []⟩, []) := by
  simp [CreateTar, runRoots, walkRoot, walkVisits, walkVisitsChildren, stepVisit,
        isNonEmptyDirRoot, entryName, relName, goIsAbs, hpm, emitDir, fileInfoHeader,
        isRegularNode]

theorem empty_primary_root_dir_entry_witness :
    CreateTar true (fun _ => false) [⟨"/ctx", FSNode.dir 3 4 []⟩] =
      Except.ok (⟨[⟨"", TypeFlag.dir, 0, 0, 0, "", [], false, none⟩], []⟩, []) :=
  empty_primary_root_dir_entry (fun _ => false) "/ctx" 3 4 rfl

/-- C2 amended: a per-entry traversal error is aggregated into the combined
multi-error that is surfaced only through the stream's close result, and the
remaining roots are still walked afterwards; but within the erroring root the
walk stops at the first failing entry — remaining siblings of the same root
are skipped, because a non-nil `WalkDirFunc` return stops `filepath.WalkDir`. -/
theorem entry_error_aggregated_across_roots (pm : String → Bool) (s1 s2 : Source)
    (st' : TarState) (e : String)
    (h : walkRoot pm 0 s1.abs (walkVisits s1.node) ⟨[], []⟩ = (st', some e)) :
    (runRoots pm 0 [s1, s2] ⟨[], []⟩ [] =
      ((walkRoot pm 1 s2.abs (walkVisits s2.node) st').1,
        e :: (walkRoot pm 1 s2.abs (walkVisits s2.node) st').2.toList)) ∧
    (∀ v rest st₀ stE eE, stepVisit pm 0 s1.abs v st₀ = (stE, some eE) →
      walkRoot pm 0 s1.abs (v :: rest) st₀ = (stE, some eE)) := by
  constructor
  · simp [runRoots, h]
  · intro v rest st₀ stE eE hstep
    simp [walkRoot, hstep]

theorem entry_error_aggregated_across_roots_witness :
    runRoots (fun _ => false) 0 [⟨"/ctx", exBadTree⟩, ⟨"/ctx2", FSNode.dir 0 0 [("g", FSNode.file fmGood)]⟩] ⟨[], []⟩ [] =
      ((walkRoot (fun _ => false) 1 "/ctx2"
          (walkVisits (FSNode.dir 0 0 [("g", FSNode.file fmGood)])) ⟨[], []⟩).1,
        "open a" :: (walkRoot (fun _ => false) 1 "/ctx2"
          (walkVisits (FSNode.dir 0 0 [("g", FSNode.file fmGood)])) ⟨[], []⟩).2.toList) :=
  (entry_error_aggregated_across_roots (fun _ => false) ⟨"/ctx", exBadTree⟩
    ⟨"/ctx2", FSNode.dir 0 0 [("g", FSNode.file fmGood)]⟩ ⟨[], []⟩ "open a" (by decide)).1

/-- helper: emitFile with working open and copy never errors. -/
theorem emitFile_ok (m : FileMeta) (name : String) (st : TarState)
    (ho : m.openOk = true) (hc : m.copyOk = true) :
    (emitFile m name st).2 = none := by
  unfold emitFile
  cases h : lookupSeen st.seen (CheckHardLink m).1 <;> simp [h, ho, hc]

/-- helper: children that are all regular files walk to one visit each. -/
theorem walkVisitsChildren_files (cs : List (String × FSNode))
    (h : ∀ p ∈ cs, ∃ m, p.2 = FSNode.file m) :
    walkVisitsChildren cs = cs.map (fun p => ([p.1], p.2)) := by
  induction cs with
  | nil => rfl
  | cons p rest ih =>
      obtain ⟨m, hm⟩ := h p (List.mem_cons_self p rest)
      obtain ⟨nm, c⟩ := p
      simp only at hm
      subst hm
      rw [walkVisitsChildren, walkVisits]
      simp [ih (fun q hq => h q (List.mem_cons_of_mem _ hq))]


@[simp] theorem isNonEmptyDirRoot_file (rel : List String) (m : FileMeta) :
    isNonEmptyDirRoot (rel, FSNode.file m) = false := by
  cases rel <;> rfl

@[simp] theorem isNonEmptyDirRoot_symlink (rel : List String) (u g : Nat) (t : String) :
    isNonEmptyDirRoot (rel, FSNode.symlink u g t) = false := by
  cases rel <;> rfl

@[simp] theorem isNonEmptyDirRoot_other (rel : List String) :
    isNonEmptyDirRoot (rel, FSNode.other) = false := by
  cases rel <;> rfl

@[simp] theorem isNonEmptyDirRoot_nonroot (nm : String) (rel : List String) (n : FSNode) :
    isNonEmptyDirRoot (nm :: rel, n) = false := by
  cases n <;> rfl

@[simp] theorem isNonEmptyDirRoot_dir_nil (u g : Nat) :
    isNonEmptyDirRoot ([], FSNode.dir u g []) = false := rfl

@[simp] theorem isNonEmptyDirRoot_dir_cons (u g : Nat) (p : String × FSNode)
    (cs : List (String × FSNode)) :
    isNonEmptyDirRoot ([], FSNode.dir u g (p :: cs)) = true := rfl

@[simp] theorem isRegularNode_file (m : FileMeta) : isRegularNode (FSNode.file m) = true := rfl

@[simp] theorem entryName_zero (a : String) (rel : List String) :
    entryName 0 a rel = relName rel := rfl

/-- The walk callback on a regular file, any root index: skip when the
(non-absolute) name is excluded, otherwise the regular-file branch. -/
theorem stepVisit_file (pm : String → Bool) (i : Nat) (a : String) (rel : List String)
    (m : FileMeta) (st : TarState) :
    stepVisit pm i a (rel, FSNode.file m) st =
      (if !goIsAbs (entryName i a rel) && pm (entryName i a rel) then (st, none)
       else emitFile m (entryName i a rel) st) := by
  unfold stepVisit
  simp

/-- The walk callback at the primary root on a directory that is not the
non-empty root itself. -/
theorem stepVisit_zero_dir (pm : String → Bool) (a : String) (rel : List String)
    (u g : Nat) (cs : List (String × FSNode)) (st : TarState)
    (hroot : isNonEmptyDirRoot (rel, FSNode.dir u g cs) = false) :
    stepVisit pm 0 a (rel, FSNode.dir u g cs) st =
      (if !goIsAbs (relName rel) && pm (relName rel) then (st, none)
       else (emitDir u g (relName rel) st, none)) := by
  unfold stepVisit
  simp [hroot]

/-- The walk callback at the primary root on a symlink. -/
theorem stepVisit_zero_symlink (pm : String → Bool) (a : String) (rel : List String)
    (u g : Nat) (t : String) (st : TarState) :
    stepVisit pm 0 a (rel, FSNode.symlink u g t) st =
      (if !goIsAbs (relName rel) && pm (relName rel) then (st, none)
       else (emitSymlink u g t (relName rel) st, none)) := by
  unfold stepVisit
  simp

/-- The walk callback at the primary root on any other node type: silently
skipped. -/
theorem stepVisit_zero_other (pm : String → Bool) (a : String) (rel : List String)
    (st : TarState) :
    stepVisit pm 0 a (rel, FSNode.other) st = (st, none) := by
  unfold stepVisit
  simp

/-- The walk callback at a later root on a non-regular node that is not the
non-empty directory root: the hard regular-file error. -/
theorem stepVisit_later_nonregular (pm : String → Bool) (i : Nat) (a : String)
    (rel : List String) (node : FSNode) (st : TarState)
    (hroot : isNonEmptyDirRoot (rel, node) = false) (hnf : isRegularNode node = false)
    (hi : i ≠ 0) :
    stepVisit pm i a (rel, node) st =
      (st, some ("path " ++ entryName i a rel ++ " must be a regular file")) := by
  unfold stepVisit
  simp [hroot, hnf, hi]

/-- The walk callback skips the non-empty-directory root without emitting. -/
theorem stepVisit_root_nonempty_dir (pm : String → Bool) (i : Nat) (a : String)
    (u g : Nat) (p : String × FSNode) (cs : List (String × FSNode)) (st : TarState) :
    stepVisit pm i a ([], FSNode.dir u g (p :: cs)) st = (st, none) := by
  unfold stepVisit
  simp

/-- helper: a visit list of single regular files with working open/copy never
makes the walk error, at any root index. -/
theorem walkRoot_files_ok (pm : String → Bool) (i : Nat) (a : String) :
    ∀ (l : List (String × FSNode)) (st : TarState),
    (∀ p ∈ l, ∃ m, p.2 = FSNode.file m ∧ m.openOk = true ∧ m.copyOk = true) →
    (walkRoot pm i a (l.map (fun p => ([p.1], p.2))) st).2 = none := by
  intro l
  induction l with
  | nil => intro st _; rfl
  | cons p rest ih =>
      intro st h
      obtain ⟨m, hm, ho, hc⟩ := h p (List.mem_cons_self p rest)
      obtain ⟨nm, c⟩ := p
      simp only at hm
      subst hm
      rw [List.map_cons, walkRoot]
      have hstep : (stepVisit pm i a ([nm], FSNode.file m) st).2 = none := by
        rw [stepVisit_file]
        split
        · rfl
        · exact emitFile_ok m _ st ho hc
      cases hsv : stepVisit pm i a ([nm], FSNode.file m) st with
      | mk st' oe =>
          rw [hsv] at hstep
          simp only at hstep
          subst hstep
          exact ih st' (fun q hq => h q (List.mem_cons_of_mem _ hq))

/-- C3 amended: for a root at index greater than 0, a symlink, an
unclassifiable node or an *empty* directory is a hard error (any visited
non-regular entry other than a non-empty directory root fails the walk), but
a non-empty directory whose children are regular files is walked without any
error — its root entry is skipped by the `Readdir(1)` check and its children
are archived — so a directory as a later root does not always fail the build. -/
theorem later_root_regular_file_rule (pm : String → Bool) (i : Nat) (a : String)
    (st : TarState) (node : FSNode) (u g : Nat) (cs : List (String × FSNode))
    (hi : i ≠ 0) (hfatal : laterRootFatal node = true) (hcs : cs ≠ [])
    (hreg : ∀ p ∈ cs, ∃ m, p.2 = FSNode.file m ∧ m.openOk = true ∧ m.copyOk = true) :
    (walkRoot pm i a (walkVisits node) st).2.isSome = true ∧
    (walkRoot pm i a (walkVisits (FSNode.dir u g cs)) st).2 = none := by
  constructor
  · cases node with
    | file m => simp [laterRootFatal] at hfatal
    | symlink su sg t =>
        rw [walkVisits, walkRoot]
        rw [stepVisit_later_nonregular pm i a [] (FSNode.symlink su sg t) st (by simp) rfl hi]
        rfl
    | other =>
        rw [walkVisits, walkRoot]
        rw [stepVisit_later_nonregular pm i a [] FSNode.other st (by simp) rfl hi]
        rfl
    | dir du dg dcs =>
        cases dcs with
        | nil =>
            rw [walkVisits, walkVisitsChildren, walkRoot]
            rw [stepVisit_later_nonregular pm i a [] (FSNode.dir du dg []) st (by simp) rfl hi]
            rfl
        | cons q qs => simp [laterRootFatal] at hfatal
  · cases cs with
    | nil => exact absurd rfl hcs
    | cons q qs =>
        rw [walkVisits, walkRoot]
        rw [stepVisit_root_nonempty_dir]
        rw [walkVisitsChildren_files (q :: qs) (fun p hp => (hreg p hp).elim (fun m hm => ⟨m, hm.1⟩))]
        exact walkRoot_files_ok pm i a (q :: qs) st hreg

theorem later_root_regular_file_rule_witness :
    ((walkRoot (fun _ => false) 1 "/abs" (walkVisits (FSNode.symlink 0 0 "target")) ⟨[], []⟩).2.isSome = true ∧
     (walkRoot (fun _ => false) 1 "/abs" (walkVisits (FSNode.dir 5 5 [("play.yaml", FSNode.file fmGood)])) ⟨[], []⟩).2 = none) :=
  later_root_regular_file_rule (fun _ => false) 1 "/abs" ⟨[], []⟩ (FSNode.symlink 0 0 "target")
    5 5 [("play.yaml", FSNode.file fmGood)] (by decide) rfl (List.cons_ne_nil _ _)
    (fun p hp => by
      rw [List.mem_singleton] at hp
      subst hp
      exact ⟨fmGood, rfl, rfl, rfl⟩)

theorem lookupSeen_mem (seen : List (devino × String)) (di : devino) (orig : String)
    (h : lookupSeen seen di = some orig) : (di, orig) ∈ seen := by
  induction seen with
  | nil => simp [lookupSeen] at h
  | cons p rest ih =>
      obtain ⟨k, v⟩ := p
      rw [lookupSeen] at h
      by_cases hk : k = di
      · rw [if_pos hk] at h
        obtain rfl := Option.some.inj h
        subst hk
        exact List.mem_cons_self _ _
      · rw [if_neg hk] at h
        exact List.mem_cons_of_mem _ (ih h)

theorem emitFile_link_eq (m : FileMeta) (name : String) (st : TarState) (orig : String)
    (h : lookupSeen st.seen (keyOf m) = some orig) :
    emitFile m name st =
      ({ st with out := st.out ++
          [⟨name, TypeFlag.link, 0, 0, 0, orig, [], false, some (keyOf m)⟩] }, none) := by
  have h' : lookupSeen st.seen (CheckHardLink m).1 = some orig := h
  simp only [emitFile, h']
  rfl

theorem emitFile_openfail_eq (m : FileMeta) (name : String) (st : TarState)
    (h : lookupSeen st.seen (keyOf m) = none) (ho : m.openOk = false) :
    emitFile m name st = (st, some ("open " ++ name)) := by
  have h' : lookupSeen st.seen (CheckHardLink m).1 = none := h
  simp only [emitFile, h', ho]
  rfl

theorem emitFile_copy_eq (m : FileMeta) (name : String) (st : TarState)
    (h : lookupSeen st.seen (keyOf m) = none) (ho : m.openOk = true) (hc : m.copyOk = true) :
    emitFile m name st =
      ({ out := st.out ++
          [⟨name, TypeFlag.reg, 0, 0, m.content.length, "", m.content, true, some (keyOf m)⟩],
         seen := if (CheckHardLink m).2 = true then (keyOf m, name) :: st.seen else st.seen },
       none) := by
  have h' : lookupSeen st.seen (CheckHardLink m).1 = none := h
  simp only [emitFile, h', ho, hc]
  rfl

theorem emitFile_copyfail_eq (m : FileMeta) (name : String) (st : TarState)
    (h : lookupSeen st.seen (keyOf m) = none) (ho : m.openOk = true) (hc : m.copyOk = false) :
    emitFile m name st =
      ({ st with out := st.out ++
          [⟨name, TypeFlag.reg, 0, 0, m.content.length, "", [], false, some (keyOf m)⟩] },
       some ("copy " ++ name)) := by
  have h' : lookupSeen st.seen (CheckHardLink m).1 = none := h
  simp only [emitFile, h', ho, hc]
  rfl

theorem emitFile_copy_hard_eq (m : FileMeta) (name : String) (st : TarState)
    (h : lookupSeen st.seen (keyOf m) = none) (ho : m.openOk = true) (hc : m.copyOk = true)
    (hnl : (CheckHardLink m).2 = true) :
    emitFile m name st =
      ({ out := st.out ++
          [⟨name, TypeFlag.reg, 0, 0, m.content.length, "", m.content, true, some (keyOf m)⟩],
         seen := (keyOf m, name) :: st.seen }, none) := by
  rw [emitFile_copy_eq m name st h ho hc, if_pos hnl]

theorem emitFile_copy_plain_eq (m : FileMeta) (name : String) (st : TarState)
    (h : lookupSeen st.seen (keyOf m) = none) (ho : m.openOk = true) (hc : m.copyOk = true)
    (hnl : (CheckHardLink m).2 = false) :
    emitFile m name st =
      ({ out := st.out ++
          [⟨name, TypeFlag.reg, 0, 0, m.content.length, "", m.content, true, some (keyOf m)⟩],
         seen := st.seen }, none) := by
  rw [emitFile_copy_eq m name st h ho hc, if_neg (by simp [hnl])]

theorem linksPointBack_append (out : List Header) (hdr : Header)
    (hInv : LinksPointBack out)
    (hex : hdr.typeflag = TypeFlag.link →
      ∃ k h', k < out.length ∧ out[k]? = some h' ∧ h'.typeflag = TypeFlag.reg ∧
        h'.copied = true ∧ h'.name = hdr.linkname ∧ h'.key = hdr.key) :
    LinksPointBack (out ++ [hdr]) := by
  intro j h hj hlink
  by_cases hcase : j < out.length
  · rw [List.getElem?_append_left hcase] at hj
    obtain ⟨k, h', hk, hk2, hr, hcp, hnm, hkey⟩ := hInv j h hj hlink
    exact ⟨k, h', hk, by rw [List.getElem?_append_left (lt_trans hk hcase)]; exact hk2,
      hr, hcp, hnm, hkey⟩
  · by_cases hj2 : j = out.length
    · subst hj2
      rw [List.getElem?_concat_length] at hj
      obtain rfl := Option.some.inj hj
      obtain ⟨k, h', hk, hk2, hr, hcp, hnm, hkey⟩ := hex hlink
      exact ⟨k, h', hk, by rw [List.getElem?_append_left hk]; exact hk2, hr, hcp, hnm, hkey⟩
    · have hge : (out ++ [hdr]).length ≤ j := by
        simp only [List.length_append, List.length_singleton]
        omega
      rw [List.getElem?_eq_none hge] at hj
      exact absurd hj (by simp)

theorem seenPointsToContent_append (st : TarState) (δ : List Header)
    (hInv : SeenPointsToContent st) :
    SeenPointsToContent ⟨st.out ++ δ, st.seen⟩ := by
  intro p hp
  obtain ⟨h, hm, hprops⟩ := hInv p hp
  exact ⟨h, List.mem_append_left δ hm, hprops⟩

/-- C10 step preservation: one walk-callback invocation preserves both
hard-link back-reference invariants, whatever its outcome. -/
theorem stepVisit_c10 (pm : String → Bool) (i : Nat) (a : String)
    (v : List String × FSNode) (st : TarState)
    (h1 : SeenPointsToContent st) (h2 : LinksPointBack st.out) :
    SeenPointsToContent (stepVisit pm i a v st).1 ∧
      LinksPointBack (stepVisit pm i a v st).1.out := by
  obtain ⟨rel, node⟩ := v
  cases node with
  | file m =>
      rw [stepVisit_file]
      split
      · exact ⟨h1, h2⟩
      · cases hl : lookupSeen st.seen (keyOf m) with
        | some orig =>
            rw [emitFile_link_eq m _ st orig hl]
            constructor
            · exact seenPointsToContent_append st _ h1
            · refine linksPointBack_append st.out _ h2 (fun _ => ?_)
              obtain ⟨h', hm, hnm, hr, hcp, hkey⟩ := h1 (keyOf m, orig) (lookupSeen_mem _ _ _ hl)
              obtain ⟨k, hk, hget⟩ := List.mem_iff_getElem.mp hm
              exact ⟨k, h', hk, by rw [List.getElem?_eq_getElem hk, hget], hr, hcp, hnm, hkey⟩
        | none =>
            cases ho : m.openOk with
            | false =>
                rw [emitFile_openfail_eq m _ st hl ho]
                exact ⟨h1, h2⟩
            | true =>
                cases hc : m.copyOk with
                | true =>
                    rw [emitFile_copy_eq m _ st hl ho hc]
                    constructor
                    · intro p hp
                      simp only at hp
                      split at hp
                      · rcases List.mem_cons.mp hp with hpeq | hpold
                        · subst hpeq
                          refine ⟨_, List.mem_append_right _ (List.mem_singleton_self _), rfl, rfl, rfl, rfl⟩
                        · obtain ⟨h', hm, hprops⟩ := h1 p hpold
                          exact ⟨h', List.mem_append_left _ hm, hprops⟩
                      · obtain ⟨h', hm, hprops⟩ := h1 p hp
                        exact ⟨h', List.mem_append_left _ hm, hprops⟩
                    · exact linksPointBack_append st.out _ h2 (fun hl2 => by simp at hl2)
                | false =>
                    rw [emitFile_copyfail_eq m _ st hl ho hc]
                    refine ⟨seenPointsToContent_append st _ h1, ?_⟩
                    exact linksPointBack_append st.out _ h2 (fun hl2 => by simp at hl2)
  | dir u g cs =>
      by_cases hroot : isNonEmptyDirRoot (rel, FSNode.dir u g cs) = true
      · unfold stepVisit
        rw [if_pos hroot]
        exact ⟨h1, h2⟩
      · by_cases hi : i = 0
        · subst hi
          rw [stepVisit_zero_dir pm a rel u g cs st (by simpa using hroot)]
          split
          · exact ⟨h1, h2⟩
          · exact ⟨seenPointsToContent_append st _ h1,
              linksPointBack_append st.out _ h2 (fun hl2 => by simp [fileInfoHeader] at hl2)⟩
        · rw [stepVisit_later_nonregular pm i a rel (FSNode.dir u g cs) st
            (by simpa using hroot) rfl hi]
          exact ⟨h1, h2⟩
  | symlink u g t =>
      by_cases hi : i = 0
      · subst hi
        rw [stepVisit_zero_symlink]
        split
        · exact ⟨h1, h2⟩
        · exact ⟨seenPointsToContent_append st _ h1,
            linksPointBack_append st.out _ h2 (fun hl2 => by simp [fileInfoHeader] at hl2)⟩
      · rw [stepVisit_later_nonregular pm i a rel (FSNode.symlink u g t) st (by simp) rfl hi]
        exact ⟨h1, h2⟩
  | other =>
      by_cases hi : i = 0
      · subst hi
        rw [stepVisit_zero_other]
        exact ⟨h1, h2⟩
      · rw [stepVisit_later_nonregular pm i a rel FSNode.other st (by simp) rfl hi]
        exact ⟨h1, h2⟩

/-- Generic invariant preservation along one root's walk: if every callback
invocation on a visit satisfying `Q` preserves `P`, the whole walk does. -/
theorem walkRoot_inv (pm : String → Bool) (i : Nat) (a : String)
    (P : TarState → Prop) (Q : List String × FSNode → Prop)
    (hstep : ∀ v st, Q v → P st → P (stepVisit pm i a v st).1) :
    ∀ (visits : List (List String × FSNode)) (st : TarState),
      (∀ v ∈ visits, Q v) → P st → P (walkRoot pm i a visits st).1 := by
  intro visits
  induction visits with
  | nil => intro st _ hP; exact hP
  | cons v rest ih =>
      intro st hQ hP
      rw [walkRoot]
      have hP' := hstep v st (hQ v (List.mem_cons_self v rest)) hP
      cases hsv : stepVisit pm i a v st with
      | mk st' oe =>
          rw [hsv] at hP'
          cases oe with
          | none => exact ih st' (fun q hq => hQ q (List.mem_cons_of_mem _ hq)) hP'
          | some e => exact hP'

/-- Generic invariant preservation across the whole pass. -/
theorem runRoots_inv (pm : String → Bool)
    (P : TarState → Prop) (Q : List String × FSNode → Prop)
    (hstep : ∀ i a v st, Q v → P st → P (stepVisit pm i a v st).1) :
    ∀ (sources : List Source) (i : Nat) (st : TarState) (errs : List String),
      (∀ s ∈ sources, ∀ v ∈ walkVisits s.node, Q v) → P st →
      P (runRoots pm i sources st errs).1 := by
  intro sources
  induction sources with
  | nil => intro i st errs _ hP; exact hP
  | cons s rest ih =>
      intro i st errs hQ hP
      rw [runRoots]
      exact ih (i + 1) _ _ (fun q hq => hQ q (List.mem_cons_of_mem _ hq))
        (walkRoot_inv pm i s.abs P Q (hstep i s.abs)
          (walkVisits s.node) st (hQ s (List.mem_cons_self s rest)) hP)

/-- C10: in the stream of one whole archive-build pass, every recorded
identity points at an already-written content entry, and every hard-link
entry written points back at a strictly earlier regular-file entry that was
fully copied, carries the same identity key, and whose archive name is the
link's `Linkname`.  In particular an identity is recorded only after its
canonical content was copied without error, and an occurrence skipped by
exclusion records nothing. -/
theorem links_reference_prior_content_entry (pm : String → Bool) (sources : List Source) :
    SeenPointsToContent (runRoots pm 0 sources ⟨[], []⟩ []).1 ∧
      LinksPointBack (runRoots pm 0 sources ⟨[], []⟩ []).1.out := by
  refine runRoots_inv pm (fun st => SeenPointsToContent st ∧ LinksPointBack st.out)
    (fun _ => True) ?_ sources 0 ⟨[], []⟩ [] (fun _ _ _ _ => trivial) ?_
  · intro i a v st _ hP
    exact stepVisit_c10 pm i a v st hP.1 hP.2
  · constructor
    · intro p hp; exact absurd hp (by simp)
    · intro j h hj hlink
      rw [List.getElem?_eq_none (by simp)] at hj
      exact absurd hj (by simp)

theorem emitFile_out_shape (m : FileMeta) (name : String) (st : TarState) :
    ∃ δ, (emitFile m name st).1.out = st.out ++ δ ∧
      ∀ hh ∈ δ, hh.uid = 0 ∧ hh.gid = 0 ∧ hh.name = name := by
  cases hl : lookupSeen st.seen (keyOf m) with
  | some orig =>
      rw [emitFile_link_eq m name st orig hl]
      exact ⟨[_], rfl, by simp⟩
  | none =>
      cases ho : m.openOk with
      | false =>
          rw [emitFile_openfail_eq m name st hl ho]
          exact ⟨[], by simp, by simp⟩
      | true =>
          cases hc : m.copyOk with
          | true =>
              rw [emitFile_copy_eq m name st hl ho hc]
              exact ⟨[_], rfl, by simp⟩
          | false =>
              rw [emitFile_copyfail_eq m name st hl ho hc]
              exact ⟨[_], rfl, by simp⟩

/-- Every callback invocation only appends entries, and every appended entry
has zeroed ownership and carries the visit's computed archive name. -/
theorem stepVisit_out_shape (pm : String → Bool) (i : Nat) (a : String)
    (v : List String × FSNode) (st : TarState) :
    ∃ δ, (stepVisit pm i a v st).1.out = st.out ++ δ ∧
      ∀ hh ∈ δ, hh.uid = 0 ∧ hh.gid = 0 ∧ hh.name = entryName i a v.1 := by
  obtain ⟨rel, node⟩ := v
  cases node with
  | file m =>
      rw [stepVisit_file]
      split
      · exact ⟨[], by simp, by simp⟩
      · exact emitFile_out_shape m _ st
  | dir u g cs =>
      by_cases hroot : isNonEmptyDirRoot (rel, FSNode.dir u g cs) = true
      · unfold stepVisit
        rw [if_pos hroot]
        exact ⟨[], by simp, by simp⟩
      · by_cases hi : i = 0
        · subst hi
          rw [stepVisit_zero_dir pm a rel u g cs st (by simpa using hroot)]
          split
          · exact ⟨[], by simp, by simp⟩
          · exact ⟨[_], rfl, by simp [fileInfoHeader, entryName_zero]⟩
        · rw [stepVisit_later_nonregular pm i a rel (FSNode.dir u g cs) st
            (by simpa using hroot) rfl hi]
          exact ⟨[], by simp, by simp⟩
  | symlink u g t =>
      by_cases hi : i = 0
      · subst hi
        rw [stepVisit_zero_symlink]
        split
        · exact ⟨[], by simp, by simp⟩
        · exact ⟨[_], rfl, by simp [fileInfoHeader, entryName_zero]⟩
      · rw [stepVisit_later_nonregular pm i a rel (FSNode.symlink u g t) st (by simp) rfl hi]
        exact ⟨[], by simp, by simp⟩
  | other =>
      by_cases hi : i = 0
      · subst hi
        rw [stepVisit_zero_other]
        exact ⟨[], by simp, by simp⟩
      · rw [stepVisit_later_nonregular pm i a rel FSNode.other st (by simp) rfl hi]
        exact ⟨[], by simp, by simp⟩

/-- C8: every archive entry the producer writes in one whole pass — regular
file, hard link, directory and symlink alike — has its owner uid and gid
reset to 0/0. -/
theorem entry_ownership_normalized (pm : String → Bool) (sources : List Source) :
    ∀ h ∈ (runRoots pm 0 sources ⟨[], []⟩ []).1.out, h.uid = 0 ∧ h.gid = 0 := by
  refine runRoots_inv pm (fun st => ∀ h ∈ st.out, h.uid = 0 ∧ h.gid = 0) (fun _ => True)
    ?_ sources 0 ⟨[], []⟩ [] (fun _ _ _ _ => trivial) ?_
  · intro i a v st _ hP hh hm
    obtain ⟨δ, hδ, hprops⟩ := stepVisit_out_shape pm i a v st
    rw [hδ] at hm
    rcases List.mem_append.mp hm with hold | hnew
    · exact hP hh hold
    · have hp := hprops hh hnew
      exact ⟨hp.1, hp.2.1⟩
  · intro hh hm
    exact absurd hm (by simp)

theorem entry_ownership_normalized_witness :
    exRegHeaderA.uid = 0 ∧ exRegHeaderA.gid = 0 :=
  entry_ownership_normalized (fun _ => false)
    [⟨"/ctx", FSNode.dir 7 8 [("a", FSNode.file fmHard)]⟩] exRegHeaderA (by decide)

theorem links_reference_prior_content_entry_witness :
    ∃ k h', k < 1 ∧
      ((runRoots (fun _ => false) 0 [⟨"/ctx", exHardTree⟩] ⟨[], []⟩ []).1.out)[k]? = some h' ∧
      h'.typeflag = TypeFlag.reg ∧ h'.copied = true ∧
      h'.name = exLinkHeaderB.linkname ∧ h'.key = exLinkHeaderB.key :=
  (links_reference_prior_content_entry (fun _ => false) [⟨"/ctx", exHardTree⟩]).2
    1 exLinkHeaderB (by decide) rfl

theorem outKey_append_single (di : devino) (out : List Header) (hdr : Header) :
    outKey di (out ++ [hdr]) =
      outKey di out ++ (if hdr.key = some di then [hdr] else []) := by
  rw [outKey, List.filter_append]
  congr 1
  by_cases hk : hdr.key = some di
  · simp [hk]
  · simp [outKey, hk]

theorem lookupSeen_cons_ne (k : devino) (v : String) (seen : List (devino × String))
    (di : devino) (hk : k ≠ di) :
    lookupSeen ((k, v) :: seen) di = lookupSeen seen di := by
  rw [lookupSeen, if_neg hk]

theorem invKey_append_other (di : devino) (st : TarState) (hdr : Header)
    (hP : InvKey di st) (hk : hdr.key ≠ some di) :
    InvKey di ⟨st.out ++ [hdr], st.seen⟩ := by
  unfold InvKey at *
  cases hls : lookupSeen st.seen di with
  | none =>
      rw [hls] at hP
      simp only [outKey_append_single, if_neg hk, List.append_nil]
      exact hP
  | some nm =>
      rw [hls] at hP
      obtain ⟨hd, tl, hout, hprops⟩ := hP
      simp only [outKey_append_single, if_neg hk, List.append_nil]
      exact ⟨hd, tl, hout, hprops⟩

/-- C1 step preservation. -/
theorem stepVisit_invKey (di : devino) (pm : String → Bool) (i : Nat) (a : String)
    (v : List String × FSNode) (st : TarState)
    (hQ : visitHardOk di v = true) (hP : InvKey di st) :
    InvKey di (stepVisit pm i a v st).1 := by
  obtain ⟨rel, node⟩ := v
  cases node with
  | file m =>
      rw [stepVisit_file]
      split
      · exact hP
      · by_cases hkey : keyOf m = di
        · have hQ' : (decide (m.nlink > 1) && m.openOk && m.copyOk) = true := by
            simpa [visitHardOk, hkey] using hQ
          have hnl : (CheckHardLink m).2 = true := by
            simp only [CheckHardLink]
            simp only [Bool.and_eq_true, decide_eq_true_eq] at hQ'
            exact decide_eq_true hQ'.1.1
          have ho : m.openOk = true := by
            simp only [Bool.and_eq_true] at hQ'
            exact hQ'.1.2
          have hc : m.copyOk = true := by
            simp only [Bool.and_eq_true] at hQ'
            exact hQ'.2
          subst hkey
          cases hls : lookupSeen st.seen (keyOf m) with
          | some orig =>
              rw [emitFile_link_eq m _ st orig hls]
              unfold InvKey at *
              rw [hls] at hP ⊢
              obtain ⟨hd, tl, hout, hnm, hr, hcp, htl⟩ := hP
              refine ⟨hd, tl ++ [⟨entryName i a rel, TypeFlag.link, 0, 0, 0, orig, [], false,
                some (keyOf m)⟩], ?_, hnm, hr, hcp, ?_⟩
              · rw [outKey_append_single, hout, if_pos rfl]
                rfl
              · intro h hm
                rcases List.mem_append.mp hm with hold | hnew
                · exact htl h hold
                · rw [List.mem_singleton] at hnew
                  subst hnew
                  exact ⟨rfl, rfl, rfl, rfl⟩
          | none =>
              rw [emitFile_copy_hard_eq m _ st hls ho hc hnl]
              unfold InvKey at *
              rw [hls] at hP
              rw [lookupSeen, if_pos rfl]
              refine ⟨⟨entryName i a rel, TypeFlag.reg, 0, 0, m.content.length, "",
                m.content, true, some (keyOf m)⟩, [], ?_, rfl, rfl, rfl, by simp⟩
              rw [outKey_append_single, hP, if_pos rfl]
              rfl
        · have hkne : (some (keyOf m) : Option devino) ≠ some di := by
            intro hcontra
            exact hkey (Option.some.inj hcontra)
          cases hls : lookupSeen st.seen (keyOf m) with
          | some orig =>
              rw [emitFile_link_eq m _ st orig hls]
              exact invKey_append_other di st _ hP hkne
          | none =>
              cases ho : m.openOk with
              | false =>
                  rw [emitFile_openfail_eq m _ st hls ho]
                  exact hP
              | true =>
                  cases hc : m.copyOk with
                  | true =>
                      have hbase := invKey_append_other di st
                        ⟨entryName i a rel, TypeFlag.reg, 0, 0, m.content.length, "",
                          m.content, true, some (keyOf m)⟩ hP hkne
                      cases hnl : (CheckHardLink m).2 with
                      | false =>
                          rw [emitFile_copy_plain_eq m _ st hls ho hc hnl]
                          exact hbase
                      | true =>
                          rw [emitFile_copy_hard_eq m _ st hls ho hc hnl]
                          unfold InvKey at hbase ⊢
                          rw [lookupSeen_cons_ne (keyOf m) _ _ di hkey]
                          exact hbase
                  | false =>
                      rw [emitFile_copyfail_eq m _ st hls ho hc]
                      exact invKey_append_other di st _ hP hkne
  | dir u g cs =>
      by_cases hroot : isNonEmptyDirRoot (rel, FSNode.dir u g cs) = true
      · unfold stepVisit
        rw [if_pos hroot]
        exact hP
      · by_cases hi : i = 0
        · subst hi
          rw [stepVisit_zero_dir pm a rel u g cs st (by simpa using hroot)]
          split
          · exact hP
          · exact invKey_append_other di st _ hP (by simp [fileInfoHeader])
        · rw [stepVisit_later_nonregular pm i a rel (FSNode.dir u g cs) st
            (by simpa using hroot) rfl hi]
          exact hP
  | symlink u g t =>
      by_cases hi : i = 0
      · subst hi
        rw [stepVisit_zero_symlink]
        split
        · exact hP
        · exact invKey_append_other di st _ hP (by simp [fileInfoHeader])
      · rw [stepVisit_later_nonregular pm i a rel (FSNode.symlink u g t) st (by simp) rfl hi]
        exact hP
  | other =>
      by_cases hi : i = 0
      · subst hi
        rw [stepVisit_zero_other]
        exact hP
      · rw [stepVisit_later_nonregular pm i a rel FSNode.other st (by simp) rfl hi]
        exact hP

/-- The `seen` map changes only when a visited regular file whose link count
exceeds one has its content copied: then exactly its key and archive name are
prepended. -/
theorem stepVisit_seen_shape (pm : String → Bool) (i : Nat) (a : String)
    (v : List String × FSNode) (st : TarState) :
    (stepVisit pm i a v st).1.seen = st.seen ∨
    ∃ m, v.2 = FSNode.file m ∧ (CheckHardLink m).2 = true ∧
      (stepVisit pm i a v st).1.seen = (keyOf m, entryName i a v.1) :: st.seen := by
  obtain ⟨rel, node⟩ := v
  cases node with
  | file m =>
      rw [stepVisit_file]
      split
      · exact Or.inl rfl
      · cases hls : lookupSeen st.seen (keyOf m) with
        | some orig =>
            rw [emitFile_link_eq m _ st orig hls]
            exact Or.inl rfl
        | none =>
            cases ho : m.openOk with
            | false =>
                rw [emitFile_openfail_eq m _ st hls ho]
                exact Or.inl rfl
            | true =>
                cases hc : m.copyOk with
                | true =>
                    cases hnl : (CheckHardLink m).2 with
                    | false =>
                        rw [emitFile_copy_plain_eq m _ st hls ho hc hnl]
                        exact Or.inl rfl
                    | true =>
                        rw [emitFile_copy_hard_eq m _ st hls ho hc hnl]
                        exact Or.inr ⟨m, rfl, hnl, rfl⟩
                | false =>
                    rw [emitFile_copyfail_eq m _ st hls ho hc]
                    exact Or.inl rfl
  | dir u g cs =>
      by_cases hroot : isNonEmptyDirRoot (rel, FSNode.dir u g cs) = true
      · unfold stepVisit
        rw [if_pos hroot]
        exact Or.inl rfl
      · by_cases hi : i = 0
        · subst hi
          rw [stepVisit_zero_dir pm a rel u g cs st (by simpa using hroot)]
          split
          · exact Or.inl rfl
          · exact Or.inl rfl
        · rw [stepVisit_later_nonregular pm i a rel (FSNode.dir u g cs) st
            (by simpa using hroot) rfl hi]
          exact Or.inl rfl
  | symlink u g t =>
      by_cases hi : i = 0
      · subst hi
        rw [stepVisit_zero_symlink]
        split
        · exact Or.inl rfl
        · exact Or.inl rfl
      · rw [stepVisit_later_nonregular pm i a rel (FSNode.symlink u g t) st (by simp) rfl hi]
        exact Or.inl rfl
  | other =>
      by_cases hi : i = 0
      · subst hi
        rw [stepVisit_zero_other]
        exact Or.inl rfl
      · rw [stepVisit_later_nonregular pm i a rel FSNode.other st (by simp) rfl hi]
        exact Or.inl rfl

/-- C1: within one archive-build pass, the emitted entries of one identity
key with link count above one are exactly one content-carrying regular entry
followed only by hard-link entries of size 0 and empty content (nothing
re-read) whose `Linkname` is the first entry's archive name; and a key all of
whose files have link count 1 is never recorded in the identity map. -/
theorem hardlink_identity_dedup (pm : String → Bool) (sources : List Source) (di : devino) :
    ((∀ s ∈ sources, ∀ v ∈ walkVisits s.node, visitHardOk di v = true) →
      (outKey di (runRoots pm 0 sources ⟨[], []⟩ []).1.out = [] ∨
       ∃ hd tl, outKey di (runRoots pm 0 sources ⟨[], []⟩ []).1.out = hd :: tl ∧
         hd.typeflag = TypeFlag.reg ∧ hd.copied = true ∧
         ∀ h ∈ tl, h.typeflag = TypeFlag.link ∧ h.size = 0 ∧ h.linkname = hd.name ∧
           h.content = [])) ∧
    ((∀ s ∈ sources, ∀ v ∈ walkVisits s.node, visitNoHard di v = true) →
      lookupSeen (runRoots pm 0 sources ⟨[], []⟩ []).1.seen di = none) := by
  constructor
  · intro hQ
    have hfin : InvKey di (runRoots pm 0 sources ⟨[], []⟩ []).1 := by
      refine runRoots_inv pm (InvKey di) (fun v => visitHardOk di v = true)
        (fun i a v st hv hP => stepVisit_invKey di pm i a v st hv hP)
        sources 0 ⟨[], []⟩ [] hQ ?_
      unfold InvKey
      rw [show lookupSeen (([] : List (devino × String))) di = none from rfl]
      rfl
    unfold InvKey at hfin
    cases hls : lookupSeen (runRoots pm 0 sources ⟨[], []⟩ []).1.seen di with
    | none =>
        rw [hls] at hfin
        exact Or.inl hfin
    | some nm =>
        rw [hls] at hfin
        obtain ⟨hd, tl, hout, hnm, hr, hcp, htl⟩ := hfin
        refine Or.inr ⟨hd, tl, hout, hr, hcp, fun h hm => ?_⟩
        obtain ⟨h1, h2, h3, h4⟩ := htl h hm
        exact ⟨h1, h2, by rw [h3, hnm], h4⟩
  · intro hQ
    refine runRoots_inv pm (fun st => lookupSeen st.seen di = none)
      (fun v => visitNoHard di v = true) ?_ sources 0 ⟨[], []⟩ [] hQ rfl
    intro i a v st hv hP
    rcases stepVisit_seen_shape pm i a v st with hsame | ⟨m, hvm, hnl, hcons⟩
    · rw [hsame]
      exact hP
    · rw [hcons]
      have hkey : keyOf m ≠ di := by
        intro hcontra
        obtain ⟨rel, node⟩ := v
        simp only at hvm
        subst hvm
        have hv' := hv
        simp only [visitNoHard, if_pos hcontra, decide_eq_true_eq] at hv'
        simp only [CheckHardLink, decide_eq_true_eq] at hnl
        omega
      rw [lookupSeen_cons_ne _ _ _ _ hkey]
      exact hP

theorem hardlink_identity_dedup_witness :
    lookupSeen (runRoots (fun _ => false) 0 [⟨"/ctx", exHardTree⟩] ⟨[], []⟩ []).1.seen
      ⟨1, 9⟩ = none :=
  (hardlink_identity_dedup (fun _ => false) [⟨"/ctx", exHardTree⟩] ⟨1, 9⟩).2 (by decide)

/-- At the primary root, a visit whose relative name matches the exclusion
set (and is not absolute) is skipped entirely: state unchanged, nil
returned — in particular the walk is not pruned, the remaining visits are
still processed. -/
theorem stepVisit_zero_skip_eq (pm : String → Bool) (a : String)
    (v : List String × FSNode) (st : TarState)
    (habs : goIsAbs (relName v.1) = false) (hpm : pm (relName v.1) = true) :
    stepVisit pm 0 a v st = (st, none) := by
  obtain ⟨rel, node⟩ := v
  cases node with
  | file m =>
      rw [stepVisit_file, if_pos (by simp [entryName_zero, habs, hpm])]
  | dir u g cs =>
      by_cases hroot : isNonEmptyDirRoot (rel, FSNode.dir u g cs) = true
      · unfold stepVisit
        rw [if_pos hroot]
      · rw [stepVisit_zero_dir pm a rel u g cs st (by simpa using hroot),
          if_pos (by simp [habs, hpm])]
  | symlink u g t =>
      rw [stepVisit_zero_symlink, if_pos (by simp [habs, hpm])]
  | other =>
      rw [stepVisit_zero_other]

/-- At the primary root, a visit whose file (if any) opens and copies fine
never makes the callback return an error. -/
theorem stepVisit_zero_noerr (pm : String → Bool) (a : String)
    (v : List String × FSNode) (st : TarState) (hok : visitFileOk v = true) :
    (stepVisit pm 0 a v st).2 = none := by
  obtain ⟨rel, node⟩ := v
  cases node with
  | file m =>
      have hoc : m.openOk = true ∧ m.copyOk = true := by
        simpa [visitFileOk] using hok
      rw [stepVisit_file]
      split
      · rfl
      · exact emitFile_ok m _ st hoc.1 hoc.2
  | dir u g cs =>
      by_cases hroot : isNonEmptyDirRoot (rel, FSNode.dir u g cs) = true
      · unfold stepVisit
        rw [if_pos hroot]
      · rw [stepVisit_zero_dir pm a rel u g cs st (by simpa using hroot)]
        split <;> rfl
  | symlink u g t =>
      rw [stepVisit_zero_symlink]
      split <;> rfl
  | other =>
      rw [stepVisit_zero_other]

theorem emitFile_emits (m : FileMeta) (name : String) (st : TarState)
    (ho : m.openOk = true) :
    ∃ hh, hh ∈ (emitFile m name st).1.out ∧ hh.name = name := by
  cases hls : lookupSeen st.seen (keyOf m) with
  | some orig =>
      rw [emitFile_link_eq m name st orig hls]
      exact ⟨_, List.mem_append_right _ (List.mem_singleton_self _), rfl⟩
  | none =>
      cases hc : m.copyOk with
      | true =>
          cases hnl : (CheckHardLink m).2 with
          | true =>
              rw [emitFile_copy_hard_eq m name st hls ho hc hnl]
              exact ⟨_, List.mem_append_right _ (List.mem_singleton_self _), rfl⟩
          | false =>
              rw [emitFile_copy_plain_eq m name st hls ho hc hnl]
              exact ⟨_, List.mem_append_right _ (List.mem_singleton_self _), rfl⟩
      | false =>
          rw [emitFile_copyfail_eq m name st hls ho hc]
          exact ⟨_, List.mem_append_right _ (List.mem_singleton_self _), rfl⟩

/-- At the primary root, a non-skipped visit of an emittable node (regular
file, directory or symlink) writes an entry under its relative name. -/
theorem stepVisit_zero_emits (pm : String → Bool) (a : String)
    (v : List String × FSNode) (st : TarState)
    (hrel : v.1 ≠ []) (hem : emittable v.2 = true)
    (hpm : pm (relName v.1) = false) (hok : visitFileOk v = true) :
    ∃ hh, hh ∈ (stepVisit pm 0 a v st).1.out ∧ hh.name = relName v.1 := by
  obtain ⟨rel, node⟩ := v
  obtain ⟨nm, rest, rfl⟩ : ∃ nm rest, rel = nm :: rest := by
    cases rel with
    | nil => exact absurd rfl hrel
    | cons nm rest => exact ⟨nm, rest, rfl⟩
  cases node with
  | file m =>
      have hoc : m.openOk = true ∧ m.copyOk = true := by
        simpa [visitFileOk] using hok
      rw [stepVisit_file, if_neg (by simp [entryName_zero, hpm])]
      simpa [entryName_zero] using emitFile_emits m _ st hoc.1
  | dir u g cs =>
      rw [stepVisit_zero_dir pm a _ u g cs st (by simp), if_neg (by simp [hpm])]
      exact ⟨_, List.mem_append_right _ (List.mem_singleton_self _), rfl⟩
  | symlink u g t =>
      rw [stepVisit_zero_symlink, if_neg (by simp [hpm])]
      exact ⟨_, List.mem_append_right _ (List.mem_singleton_self _), rfl⟩
  | other =>
      simp [emittable] at hem

/-- One root's walk only appends to the stream. -/
theorem walkRoot_out_mono (pm : String → Bool) (i : Nat) (a : String) :
    ∀ (visits : List (List String × FSNode)) (st : TarState),
      ∃ Δ, (walkRoot pm i a visits st).1.out = st.out ++ Δ := by
  intro visits
  induction visits with
  | nil => intro st; exact ⟨[], by simp [walkRoot]⟩
  | cons u rest ih =>
      intro st
      obtain ⟨δ, hδ, _⟩ := stepVisit_out_shape pm i a u st
      rw [walkRoot]
      cases hsv : stepVisit pm i a u st with
      | mk st' oe =>
          rw [hsv] at hδ
          simp only at hδ
          cases oe with
          | none =>
              obtain ⟨Δ, hΔ⟩ := ih st'
              exact ⟨δ ++ Δ, by rw [hΔ, hδ, List.append_assoc]⟩
          | some e => exact ⟨δ, hδ⟩

/-- Part 1 engine for C4: every entry the primary root's walk adds comes from
some visit under its own relative name, and only when the pattern set does
not match that name. -/
theorem walkRoot_zero_names (pm : String → Bool) (a : String) :
    ∀ (visits : List (List String × FSNode)) (st : TarState),
      (∀ v ∈ visits, goIsAbs (relName v.1) = false) →
      ∀ hh ∈ (walkRoot pm 0 a visits st).1.out,
        hh ∈ st.out ∨ ∃ v ∈ visits, hh.name = relName v.1 ∧ pm (relName v.1) = false := by
  intro visits
  induction visits with
  | nil =>
      intro st _ hh hm
      exact Or.inl hm
  | cons u rest ih =>
      intro st habs hh hm
      by_cases hpm : pm (relName u.1) = true
      · rw [walkRoot, stepVisit_zero_skip_eq pm a u st (habs u (List.mem_cons_self u rest)) hpm]
        at hm
        rcases ih st (fun q hq => habs q (List.mem_cons_of_mem _ hq)) hh hm with hold | ⟨v, hv, hp⟩
        · exact Or.inl hold
        · exact Or.inr ⟨v, List.mem_cons_of_mem _ hv, hp⟩
      · rw [walkRoot] at hm
        obtain ⟨δ, hδ, hnames⟩ := stepVisit_out_shape pm 0 a u st
        cases hsv : stepVisit pm 0 a u st with
        | mk st' oe =>
            rw [hsv] at hδ hm
            simp only at hδ
            have hsplit : hh ∈ st'.out →
                hh ∈ st.out ∨ ∃ v ∈ u :: rest, hh.name = relName v.1 ∧ pm (relName v.1) = false := by
              intro hmem
              rw [hδ] at hmem
              rcases List.mem_append.mp hmem with hold | hnew
              · exact Or.inl hold
              · have hn := hnames hh hnew
                exact Or.inr ⟨u, List.mem_cons_self u rest,
                  by rw [hn.2.2, entryName_zero], by simpa using hpm⟩
            cases oe with
            | some e => exact hsplit hm
            | none =>
                rcases ih st' (fun q hq => habs q (List.mem_cons_of_mem _ hq)) hh hm with
                  hmid | ⟨v, hv, hp⟩
                · exact hsplit hmid
                · exact Or.inr ⟨v, List.mem_cons_of_mem _ hv, hp⟩

/-- Part 2 engine for C4: with error-free files, every non-root emittable
visit whose own name the pattern set does not match ends up with an entry in
the stream — regardless of what the pattern set says about its ancestors. -/
theorem walkRoot_zero_complete (pm : String → Bool) (a : String) :
    ∀ (visits : List (List String × FSNode)) (st : TarState),
      (∀ v ∈ visits, visitFileOk v = true) →
      ∀ v ∈ visits, v.1 ≠ [] → emittable v.2 = true → pm (relName v.1) = false →
        ∃ hh ∈ (walkRoot pm 0 a visits st).1.out, hh.name = relName v.1 := by
  intro visits
  induction visits with
  | nil =>
      intro st _ v hv
      exact absurd hv (by simp)
  | cons u rest ih =>
      intro st hok v hv hrel hem hpm
      have hnoerr := stepVisit_zero_noerr pm a u st (hok u (List.mem_cons_self u rest))
      rw [walkRoot]
      cases hsv : stepVisit pm 0 a u st with
      | mk st' oe =>
          rw [hsv] at hnoerr
          simp only at hnoerr
          subst hnoerr
          rcases List.mem_cons.mp hv with rfl | hvrest
          · obtain ⟨hh, hmem, hname⟩ := stepVisit_zero_emits pm a v st hrel hem hpm
              (hok v (List.mem_cons_self v rest))
            rw [hsv] at hmem
            simp only at hmem
            obtain ⟨Δ, hΔ⟩ := walkRoot_out_mono pm 0 a rest st'
            exact ⟨hh, by rw [hΔ]; exact List.mem_append_left Δ hmem, hname⟩
          · exact ih st' (fun q hq => hok q (List.mem_cons_of_mem _ hq)) v hvrest hrel hem hpm

/-- C4: for the primary root, a relative path matched by the exclude-pattern
set never appears as an entry name; yet traversal is not pruned — every
descendant, even of an excluded directory, is visited and individually
tested, so each non-matched emittable descendant still gets its own entry
(which is how a negation pattern re-includes a descendant). -/
theorem exclusion_skips_without_pruning (pm : String → Bool) (src : Source)
    (hok : ∀ v ∈ walkVisits src.node, visitFileOk v = true)
    (habs : ∀ v ∈ walkVisits src.node, goIsAbs (relName v.1) = false) :
    (∀ v ∈ walkVisits src.node, pm (relName v.1) = true →
      ∀ hh ∈ (runRoots pm 0 [src] ⟨[], []⟩ []).1.out, hh.name ≠ relName v.1) ∧
    (∀ v ∈ walkVisits src.node, v.1 ≠ [] → emittable v.2 = true →
      pm (relName v.1) = false →
      ∃ hh ∈ (runRoots pm 0 [src] ⟨[], []⟩ []).1.out, hh.name = relName v.1) := by
  have hrun : (runRoots pm 0 [src] ⟨[], []⟩ []).1 =
      (walkRoot pm 0 src.abs (walkVisits src.node) ⟨[], []⟩).1 := by
    rw [runRoots]
    cases hw : walkRoot pm 0 src.abs (walkVisits src.node) ⟨[], []⟩ with
    | mk st' oe => rw [runRoots]
  rw [hrun]
  constructor
  · intro v hv hpm hh hm hcontra
    rcases walkRoot_zero_names pm src.abs (walkVisits src.node) ⟨[], []⟩ habs hh hm with
      hold | ⟨w, hw, hname, hwpm⟩
    · exact absurd hold (by simp)
    · rw [hcontra] at hname
      rw [← hname] at hwpm
      rw [hwpm] at hpm
      exact Bool.false_ne_true hpm
  · intro v hv hrel hem hpm
    exact walkRoot_zero_complete pm src.abs (walkVisits src.node) ⟨[], []⟩ hok v hv hrel hem hpm

theorem exclusion_skips_without_pruning_witness :
    ∃ hh ∈ (runRoots (fun s => s == "sub") 0 [⟨"/ctx", exSubTree⟩] ⟨[], []⟩ []).1.out,
      hh.name = relName ["sub", "inner.txt"] :=
  (exclusion_skips_without_pruning (fun s => s == "sub") ⟨"/ctx", exSubTree⟩
      (by decide) (by decide)).2
    (["sub", "inner.txt"], FSNode.file fmPlain)
    (by simp [exSubTree, walkVisits, walkVisitsChildren])
    (by simp) (by decide) (by decide)
